import Mathlib

/-!
Verification development for the manuscript-editor core: the typographic
correction engine (`js/typography.js`, object `window.TypographyEngine`) and
the chapter segmentation/reassembly model (`parser.js`, object
`window.Parser`).

The JavaScript is embedded shallowly over `List Char` (a JS string is its
sequence of UTF-16-ish code points; all characters in play are plain scalars).
Each JS regex used by the source is small enough that its exact backtracking
semantics (leftmost match, ordered alternation, greedy `\s+`/`+`, lazy `*?`,
single-pass global replacement resuming after each match) is reproduced by a
dedicated scanner, documented where it is defined.  Recursive scanners take an
explicit fuel argument so that every definition is structurally recursive and
kernel-computable; the public wrappers instantiate the fuel with a bound
(`length + 1`) that the scan can never exhaust, because every step consumes at
least one character.

`Parser.getChapters` is embedded with an `Except` result: the source line
`let currentTitle = firstMatch.trim();` calls `.trim()` on the value returned
by `regex.exec`, which is a match *array* and has no `trim` method, so the
JavaScript throws a `TypeError` whenever the heading regex matches at all.
-/

/-- JavaScript's whitespace class `\s` (also the set removed by
`String.prototype.trim`): space, `\t`, `\n`, `\v`, `\f`, `\r`, NBSP, Ogham
space mark, the U+2000–U+200A range, line/paragraph separators, narrow NBSP,
medium mathematical space, ideographic space, and the BOM. -/
def isJsWs (c : Char) : Bool :=
  c = ' ' || c = '\t' || c = '\n' || c = '\x0b' || c = '\x0c' || c = '\r' ||
  c.toNat = 0xa0 || c.toNat = 0x1680 ||
  (0x2000 ≤ c.toNat && c.toNat ≤ 0x200a) ||
  c.toNat = 0x2028 || c.toNat = 0x2029 || c.toNat = 0x202f || c.toNat = 0x205f ||
  c.toNat = 0x3000 || c.toNat = 0xfeff

/-- JavaScript's `.` character class (without the `s` flag): any character
except the four line terminators `\n`, `\r`, U+2028, U+2029. -/
def isDot (c : Char) : Bool :=
  !(c = '\n' || c = '\r' || c.toNat = 0x2028 || c.toNat = 0x2029)

/-- `'0'` to `'9'`, the regex class `\d`. -/
def isDigitCh (c : Char) : Bool :=
  '0' ≤ c && c ≤ '9'

/-- `String.prototype.trim`: drop JS whitespace from both ends. -/
def jsTrim (l : List Char) : List Char :=
  ((l.dropWhile isJsWs).reverse.dropWhile isJsWs).reverse

/-- `text.split('\n')`: split into lines at every newline; never empty, and
no produced line contains a newline. -/
def splitNl : List Char → List (List Char)
  | [] => [[]]
  | c :: rest =>
    if c = '\n' then [] :: splitNl rest
    else
      match splitNl rest with
      | [] => [[c]]
      | h :: t => (c :: h) :: t

/-- `lines.join('\n')`. -/
def joinNl : List (List Char) → List Char
  | [] => []
  | [l] => l
  | l :: ls => l ++ '\n' :: joinNl ls

/-- `[n, n-1, ..., 1]`: the order in which a greedy quantifier hands back
characters while backtracking. -/
def descRange (n : Nat) : List Nat :=
  (List.range n).map fun i => n - i

/-- Whether `pat` occurs as a contiguous substring of `s`. -/
def hasSubstr (pat : List Char) : List Char → Bool
  | [] => pat.isEmpty
  | c :: rest => pat.isPrefixOf (c :: rest) || hasSubstr pat rest

namespace TypographyEngine

/-- `isAlphanumeric` (typography.js line 15): the regex
`/^[A-Za-zÀ-ÖØ-öø-ÿ0-9]$/`, i.e. ASCII letters and digits plus the Latin-1
letter ranges U+00C0–U+00D6, U+00D8–U+00F6, U+00F8–U+00FF. -/
def isAlphanumeric (c : Char) : Bool :=
  ('A' ≤ c && c ≤ 'Z') || ('a' ≤ c && c ≤ 'z') || ('0' ≤ c && c ≤ '9') ||
  (0xc0 ≤ c.toNat && c.toNat ≤ 0xd6) ||
  (0xd8 ≤ c.toNat && c.toNat ≤ 0xf6) ||
  (0xf8 ≤ c.toNat && c.toNat ≤ 0xff)

/-- The backtick character. -/
def btk : Char := '`'

/-- The placeholder text `__CODE_BLOCK_<i>__` pushed by the extraction pass
(typography.js line 35). -/
def placeholder (i : Nat) : List Char :=
  "__CODE_BLOCK_".data ++ (Nat.repr i).data ++ "__".data

/--
The extraction pass (typography.js lines 30–36):
`text.replace(/(```*?(?:```|$)|`+`)/g, match => { push(match); return token })`.

Backtracking semantics of that regex at a position starting a maximal run of
`n` backticks: alternative 1 is two literal backticks, a lazy run of
backticks, then `` ``` `` or end-of-input, so it matches 5 backticks when
`n ≥ 5` and the whole run when `2 ≤ n ≤ 4` and the run ends the string;
otherwise alternative 2 (`` `+` ``, greedy with one backtick given back)
matches the whole run when `n ≥ 2`.  In every case a run of `n ≥ 5` yields a
match of exactly 5 backticks and a run of `2 ≤ n ≤ 4` a match of `n`
backticks, a single backtick matches nothing, and scanning resumes right
after the match.  Note the regex (whose bracketed character classes are
missing) matches only backtick runs, never the text between them.
-/
def extractGo : Nat → List (List Char) → List Char → List Char × List (List Char)
  | 0, ps, _ => ([], ps)
  | _ + 1, ps, [] => ([], ps)
  | f + 1, ps, c :: rest =>
    if c = btk then
      let n := 1 + (rest.takeWhile (· = btk)).length
      if 2 ≤ n then
        let m := if 5 ≤ n then 5 else n
        let r := extractGo f (ps ++ [List.replicate m btk]) ((c :: rest).drop m)
        (placeholder ps.length ++ r.1, r.2)
      else
        let r := extractGo f ps rest
        (c :: r.1, r.2)
    else
      let r := extractGo f ps rest
      (c :: r.1, r.2)

/-- The extraction pass: rewritten text plus the pushed fragment list. -/
def extract (s : List Char) : List Char × List (List Char) :=
  extractGo (s.length + 1) [] s

/-- `parseInt(digits, 10)` on a run of decimal digits. -/
def digitsToNat (ds : List Char) : Nat :=
  ds.foldl (fun a c => a * 10 + (c.toNat - 48)) 0

/--
Matching `__CODE_BLOCK_(\d+)__` at the head of `s`: the literal prefix, a
maximal nonempty digit run (greedy `\d+`; no shorter run can succeed since a
digit is not `_`), then `__`.  Returns the parsed index and the match length.
-/
def matchToken (s : List Char) : Option (Nat × Nat) :=
  if "__CODE_BLOCK_".data.isPrefixOf s then
    let ds := (s.drop 13).takeWhile isDigitCh
    if ds.isEmpty then none
    else if "__".data.isPrefixOf (s.drop (13 + ds.length)) then
      some (digitsToNat ds, 13 + ds.length + 2)
    else none
  else none

/--
The restoration pass (typography.js lines 100–103):
`processedText.replace(/__CODE_BLOCK_(\d+)__/g, (m, i) => ps[parseInt(i, 10)])`.
When the parsed index has no entry, the callback returns `undefined`, which
`String.replace` stringifies to `"undefined"`.
-/
def restoreGo : Nat → List (List Char) → List Char → List Char
  | 0, _, s => s
  | _ + 1, _, [] => []
  | f + 1, ps, c :: rest =>
    match matchToken (c :: rest) with
    | some (idx, len) =>
      ps.getD idx "undefined".data ++ restoreGo f ps ((c :: rest).drop len)
    | none => c :: restoreGo f ps rest

/-- The restoration pass on a whole text. -/
def restore (ps : List (List Char)) (s : List Char) : List Char :=
  restoreGo (s.length + 1) ps s

/-- The protected-token test (typography.js line 47):
`/^__CODE_BLOCK_\d+__$/.test(line.trim())`. -/
def isTokenLine (l : List Char) : Bool :=
  match matchToken (jsTrim l) with
  | some (_, len) => decide (len = (jsTrim l).length)
  | none => false

/-- A maximal-run length: the number of JS-whitespace characters of `s`
starting at index `i` (`\s+` can consume at most this much). -/
def wsRun (s : List Char) (i : Nat) : Nat :=
  ((s.drop i).takeWhile isJsWs).length

/-- Whether the literal emphasis marker of width `μ` (that many `*`) stands
at index `i` of `s`. -/
def markerAt (s : List Char) (μ i : Nat) : Bool :=
  (List.replicate μ '*').isPrefixOf (s.drop i)

/-- Whether the `k` characters of `s` starting at index `i` exist and are all
matched by `.` (a lazy `.*?` can reach exactly the `k` with this property,
trying them in ascending order). -/
def allDot (s : List Char) (i k : Nat) : Bool :=
  i + k ≤ s.length && ((s.drop i).take k).all isDot

/-- The `k` characters of `s` starting at index `i`. -/
def slice (s : List Char) (i k : Nat) : List Char :=
  (s.drop i).take k

/--
A match of `(m)\s+(.*?)\s+(m)` (marker width `μ`) attempted at index `p` of
`s`, in engine priority order: the leading `\s+` greedy (longest first), the
lazy `.*?` shortest first, the trailing `\s+` greedy, then the literal
marker.  Returns the text captured by `.*?` and the index just after the
match; the replacement `'$1$2$3'` is marker ++ capture ++ marker.
-/
def mBoth (s : List Char) (μ p : Nat) : Option (List Char × Nat) :=
  if markerAt s μ p then
    let a := p + μ
    (descRange (wsRun s a)).findSome? fun l =>
      let b := a + l
      (List.range (s.length + 1 - b)).findSome? fun k =>
        if allDot s b k then
          let q := b + k
          (descRange (wsRun s q)).findSome? fun mm =>
            if markerAt s μ (q + mm) then some (slice s b k, q + mm + μ) else none
        else none
  else none

/-- A match of `(m)\s+(.*?)(m)` attempted at index `p`, same conventions as
`mBoth`. -/
def mLead (s : List Char) (μ p : Nat) : Option (List Char × Nat) :=
  if markerAt s μ p then
    let a := p + μ
    (descRange (wsRun s a)).findSome? fun l =>
      let b := a + l
      (List.range (s.length + 1 - b)).findSome? fun k =>
        if allDot s b k && markerAt s μ (b + k) then some (slice s b k, b + k + μ)
        else none
  else none

/-- A match of `(m)(.*?)\s+(m)` attempted at index `p`, same conventions as
`mBoth`. -/
def mTrail (s : List Char) (μ p : Nat) : Option (List Char × Nat) :=
  if markerAt s μ p then
    let a := p + μ
    (List.range (s.length + 1 - a)).findSome? fun k =>
      if allDot s a k then
        let q := a + k
        (descRange (wsRun s q)).findSome? fun mm =>
          if markerAt s μ (q + mm) then some (slice s a k, q + mm + μ) else none
      else none
  else none

/-- The leftmost match of `matchAt` in `s`: the regex engine tries start
indices in ascending order. -/
def findLeftmost (matchAt : List Char → Nat → Option (List Char × Nat))
    (s : List Char) : Option (Nat × List Char × Nat) :=
  (List.range (s.length + 1)).findSome? fun p => (matchAt s p).map fun r => (p, r)

/--
A global `String.replace` with replacement `'$1$2$3'` for one of the three
collapse patterns: repeatedly take the leftmost match, emit
marker ++ capture ++ marker in its place, and resume scanning immediately
after the match (a single left-to-right pass: rewritten output is not
rescanned).  Each match spans at least `2μ + 1 ≥ 3` characters, so fuel
`length + 1` is never exhausted.
-/
def collapseGo (matchAt : List Char → Nat → Option (List Char × Nat)) (μ : Nat) :
    Nat → List Char → List Char
  | 0, s => s
  | f + 1, s =>
    match findLeftmost matchAt s with
    | none => s
    | some (p, g2, e) =>
      s.take p ++ List.replicate μ '*' ++ g2 ++ List.replicate μ '*' ++
        collapseGo matchAt μ f (s.drop e)

/-- One global collapse replacement over a line. -/
def collapse (matchAt : List Char → Nat → Option (List Char × Nat)) (μ : Nat)
    (s : List Char) : List Char :=
  collapseGo matchAt μ (s.length + 1) s

/-- The bullet-list test (typography.js line 123): `/^\s*\*\s+/.test(line)`. -/
def bulletCheck (l : List Char) : Bool :=
  match l.dropWhile isJsWs with
  | '*' :: c :: _ => isJsWs c
  | _ => false

/-- `line.replace(/^(\s*)\*(\s+)/, '$1__LIST__$2')` on a line passing
`bulletCheck`: the groups are re-emitted, so exactly the structural `*` is
replaced by `__LIST__`. -/
def maskList (l : List Char) : List Char :=
  l.takeWhile isJsWs ++ "__LIST__".data ++
    (match l.dropWhile isJsWs with
     | _ :: t => t
     | [] => [])

/-- A non-global literal `String.replace`: substitute the first occurrence
of `pat` only. -/
def replaceFirstLit (pat rep : List Char) : List Char → List Char
  | [] => []
  | c :: rest =>
    if pat.isPrefixOf (c :: rest) then rep ++ (c :: rest).drop pat.length
    else c :: replaceFirstLit pat rep rest

/--
`fixEmphasisSpaces` (typography.js lines 111–139): for widths 3 then 2, the
three collapse replacements (both sides, leading, trailing); then the
bullet-list mask, the three width-1 replacements, and the unmask
(`line.replace(/__LIST__/, '*')`, non-global).
-/
def fixEmphasisSpaces (line : List Char) : List Char :=
  let l1 := collapse (fun s p => mBoth s 3 p) 3 line
  let l2 := collapse (fun s p => mLead s 3 p) 3 l1
  let l3 := collapse (fun s p => mTrail s 3 p) 3 l2
  let l4 := collapse (fun s p => mBoth s 2 p) 2 l3
  let l5 := collapse (fun s p => mLead s 2 p) 2 l4
  let l6 := collapse (fun s p => mTrail s 2 p) 2 l5
  let isL := bulletCheck l6
  let l7 := if isL then maskList l6 else l6
  let l8 := collapse (fun s p => mBoth s 1 p) 1 l7
  let l9 := collapse (fun s p => mLead s 1 p) 1 l8
  let l10 := collapse (fun s p => mTrail s 1 p) 1 l9
  if isL then replaceFirstLit "__LIST__".data "*".data l10 else l10

/-- A global literal `String.replace`: a single left-to-right pass,
resuming after each substitution (substituted text is not rescanned). -/
def replaceAllLit (pat rep : List Char) : Nat → List Char → List Char
  | 0, s => s
  | _ + 1, [] => []
  | f + 1, c :: rest =>
    if pat.isPrefixOf (c :: rest) then
      rep ++ replaceAllLit pat rep f ((c :: rest).drop pat.length)
    else c :: replaceAllLit pat rep f rest

/-- `replaceAllLit` with enough fuel. -/
def replaceAll (pat rep l : List Char) : List Char :=
  replaceAllLit pat rep (l.length + 1) l

/-- `reorderMarkers` (typography.js lines 144–155): six global literal
replacements, in source order (all six regexes are literal patterns and the
replacement strings contain no `$`). -/
def reorderMarkers (line : List Char) : List Char :=
  let r1 := replaceAll "***«".data "«***".data line
  let r2 := replaceAll "**«".data "«**".data r1
  let r3 := replaceAll "*«".data "«*".data r2
  let r4 := replaceAll "»***".data "***»".data r3
  let r5 := replaceAll "»**".data "**»".data r4
  replaceAll "»*".data "*»".data r5

/--
The quote scan (typography.js lines 55–88): one pass over the line carrying
the dialogue flag.  `prev` is the character at the previous index of the
*original* line (a space at the line start), and the following character is
read from the unconsumed remainder (a space at the line end).  Literal
guillemets pass through and force the state; a straight quote between two
alphanumeric neighbours is kept; any other straight quote becomes `»` when
the state is open and `«` when it is closed, toggling the state.
-/
def quoteGo : Char → Bool → List Char → List Char × Bool
  | _, b, [] => ([], b)
  | prev, b, c :: rest =>
    if c = '«' then
      let r := quoteGo c true rest
      (c :: r.1, r.2)
    else if c = '»' then
      let r := quoteGo c false rest
      (c :: r.1, r.2)
    else if c = '\'' || c = '"' then
      if isAlphanumeric prev && isAlphanumeric (rest.headD ' ') then
        let r := quoteGo c b rest
        (c :: r.1, r.2)
      else if b then
        let r := quoteGo c false rest
        ('»' :: r.1, r.2)
      else
        let r := quoteGo c true rest
        ('«' :: r.1, r.2)
    else
      let r := quoteGo c b rest
      (c :: r.1, r.2)

/-- One iteration of the per-line loop (typography.js lines 42–95): a line
that trims to a protected token is left untouched (and the dialogue state is
unchanged); otherwise emphasis cleanup, then the quote scan, then marker
reordering. -/
def processLine (b : Bool) (l : List Char) : List Char × Bool :=
  if isTokenLine l then (l, b)
  else
    let l1 := fixEmphasisSpaces l
    let r := quoteGo ' ' b l1
    (reorderMarkers r.1, r.2)

/-- The per-line loop over all lines, threading the dialogue state. -/
def processLines (b : Bool) : List (List Char) → List (List Char) × Bool
  | [] => ([], b)
  | l :: ls =>
    let r := processLine b l
    let rs := processLines r.2 ls
    (r.1 :: rs.1, rs.2)

/-- `TypographyEngine.process` on the character list: extraction, the
per-line loop started with a closed dialogue state, then restoration. -/
def processL (s : List Char) : List Char :=
  if s.isEmpty then s
  else
    let e := extract s
    let pl := processLines false (splitNl e.1)
    restore e.2 (joinNl pl.1)

/-- `TypographyEngine.process` (typography.js lines 25–106).  `if (!text)
return text` returns the empty string unchanged. -/
def process (s : String) : String :=
  String.mk (processL s.data)

end TypographyEngine

namespace Parser

/-- `fullText.replace(/\r\n/g, '\n')` (parser.js line 238). -/
def normalizeNewlines : List Char → List Char
  | '\r' :: '\n' :: rest => '\n' :: normalizeNewlines rest
  | c :: rest => c :: normalizeNewlines rest
  | [] => []

/-- Whether index `p` is the start of the text or preceded by a newline: the
positions at which `(?:^|\n)` lets the heading regex begin (without the `m`
flag, `^` is only the very start). -/
def lineStartAt (s : List Char) (p : Nat) : Bool :=
  if p = 0 then true else s.get? (p - 1) == some '\n'

/--
Whether `####\s+(.+)` matches at index `p` of `s`: the four hashes, then a
nonempty prefix of the maximal whitespace run (`\s+` greedy, backtracking
from the full run down to one character), then at least one `.`-matched
character for `(.+)`.  Only existence matters to `getChapters`, because the
successful `exec` is immediately followed by the throwing `.trim()` call.
-/
def headingAt (s : List Char) (p : Nat) : Bool :=
  "####".data.isPrefixOf (s.drop p) &&
  (descRange (TypographyEngine.wsRun s (p + 4))).any fun l =>
    match s.get? (p + 4 + l) with
    | some c => isDot c
    | none => false

/-- Whether the chapter-heading regex `/(?:^|\n)####\s+(.+)/g` (parser.js
line 242) matches anywhere in `s`. -/
def hasHeading (s : List Char) : Bool :=
  (List.range s.length).any fun p => lineStartAt s p && headingAt s p

/-- The transient chapter record `{title, content}`. -/
structure Chapter where
  title : String
  content : String
deriving DecidableEq

/-- The JavaScript exception raised by `Parser.getChapters` at line 255:
`firstMatch` is the match array returned by `exec`, and arrays have no
`trim` method. -/
def jsMatchTrimError : String := "TypeError: firstMatch.trim is not a function"

/--
`Parser.getChapters` (parser.js lines 234–287), embedded faithfully: the
empty string yields `[]`; otherwise CRLF is normalized, and if the heading
regex matches anywhere the function throws (`firstMatch.trim()` on the match
array) before producing any chapter; with no heading match, nonempty trimmed
text becomes the single chapter `"Chapitre 1"`, else the list is empty.
-/
def getChapters (fullText : String) : Except String (List Chapter) :=
  if fullText = "" then .ok []
  else
    let text := normalizeNewlines fullText.data
    if hasHeading text then .error jsMatchTrimError
    else if (jsTrim text).isEmpty then .ok []
    else .ok [⟨"Chapitre 1", String.mk (jsTrim text)⟩]

/-- `Parser.reassemble` (parser.js lines 292–300): each chapter becomes
`"#### " + title`, followed by a blank line and the trimmed content when the
content is truthy and trims to something nonempty; blocks are joined by
`'\n\n\n'`; an empty list yields the empty string. -/
def reassemble (cs : List Chapter) : String :=
  if cs.isEmpty then ""
  else
    String.intercalate "\n\n\n" (cs.map fun c =>
      let content := if c.content = "" then "" else String.mk (jsTrim c.content.data)
      if content = "" then "#### " ++ c.title
      else "#### " ++ c.title ++ "\n\n" ++ content)

/--
Modelled from the claim's words (for comparison with the source behaviour,
not from the source): a heading boundary in the claimed sense exists when
some line of the text begins with four hashes, then one or more *space*
characters, then a nonempty remainder of that same line.
-/
def specHeadingBoundary (s : String) : Bool :=
  (splitNl (normalizeNewlines s.data)).any fun line =>
    "####".data.isPrefixOf line &&
    (let t := line.drop 4
     let sp := t.takeWhile (fun c => c = ' ')
     !sp.isEmpty && !(t.drop sp.length).isEmpty)

end Parser

/-! ### Library-style lemmas about the scanners -/

theorem splitNl_ne_nil (s : List Char) : splitNl s ≠ [] := by
  induction s with
  | nil => simp [splitNl]
  | cons c rest ih =>
    simp only [splitNl]
    split
    · simp
    · cases h : splitNl rest with
      | nil => simp
      | cons h t => simp

theorem joinNl_splitNl (s : List Char) : joinNl (splitNl s) = s := by
  induction s with
  | nil => simp [splitNl, joinNl]
  | cons c rest ih =>
    simp only [splitNl]
    split
    · rename_i hc
      subst hc
      cases h : splitNl rest with
      | nil => exact absurd h (splitNl_ne_nil rest)
      | cons a t =>
        rw [h] at ih
        simp [joinNl, ← ih]
    · cases h : splitNl rest with
      | nil => exact absurd h (splitNl_ne_nil rest)
      | cons a t =>
        rw [h] at ih
        cases t with
        | nil => simpa [joinNl] using congrArg (c :: ·) ih
        | cons b u => simpa [joinNl] using congrArg (c :: ·) ih

theorem not_nl_of_mem_splitNl (s : List Char) :
    ∀ l ∈ splitNl s, '\n' ∉ l := by
  induction s with
  | nil => simp [splitNl]
  | cons c rest ih =>
    simp only [splitNl]
    split
    · intro l hl
      rcases List.mem_cons.mp hl with h | h
      · simp [h]
      · exact ih l h
    · rename_i hc
      cases h : splitNl rest with
      | nil => exact absurd h (splitNl_ne_nil rest)
      | cons a t =>
        intro l hl
        rcases List.mem_cons.mp hl with h' | h'
        · subst h'
          intro hmem
          rcases List.mem_cons.mp hmem with h'' | h''
          · exact hc h''.symm
          · exact ih a (h ▸ List.mem_cons_self a t) h''
        · exact ih l (h ▸ List.mem_cons_of_mem a h')

theorem mem_of_mem_splitNl (s : List Char) :
    ∀ l ∈ splitNl s, ∀ c ∈ l, c ∈ s := by
  induction s with
  | nil => simp [splitNl]
  | cons c rest ih =>
    simp only [splitNl]
    split
    · intro l hl a ha
      rcases List.mem_cons.mp hl with h | h
      · simp [h] at ha
      · exact List.mem_cons_of_mem c (ih l h a ha)
    · cases h : splitNl rest with
      | nil => exact absurd h (splitNl_ne_nil rest)
      | cons hd t =>
        intro l hl a ha
        rcases List.mem_cons.mp hl with h' | h'
        · subst h'
          rcases List.mem_cons.mp ha with h'' | h''
          · exact h'' ▸ List.mem_cons_self c rest
          · exact List.mem_cons_of_mem c (ih hd (h ▸ List.mem_cons_self hd t) a h'')
        · exact List.mem_cons_of_mem c (ih l (h ▸ List.mem_cons_of_mem hd h') a ha)

theorem splitNl_joinNl (ls : List (List Char)) (hne : ls ≠ [])
    (hnl : ∀ l ∈ ls, '\n' ∉ l) : splitNl (joinNl ls) = ls := by
  induction ls with
  | nil => exact absurd rfl hne
  | cons l ls ih =>
    have hl : '\n' ∉ l := hnl l (List.mem_cons_self l ls)
    cases ls with
    | nil =>
      simp only [joinNl]
      clear ih hne hnl
      induction l with
      | nil => simp [splitNl]
      | cons c rest ihl =>
        have hc : c ≠ '\n' := fun h => hl (h ▸ List.mem_cons_self c rest)
        have hrest : '\n' ∉ rest := fun h => hl (List.mem_cons_of_mem c h)
        simp only [splitNl, if_neg hc, ihl hrest]
    | cons l2 ls2 =>
      have htail : splitNl (joinNl (l2 :: ls2)) = l2 :: ls2 :=
        ih (by simp) (fun x hx => hnl x (List.mem_cons_of_mem l hx))
      simp only [joinNl]
      clear ih hne hnl
      induction l with
      | nil => simp [splitNl, htail]
      | cons c rest ihl =>
        have hc : c ≠ '\n' := fun h => hl (h ▸ List.mem_cons_self c rest)
        have hrest : '\n' ∉ rest := fun h => hl (List.mem_cons_of_mem c h)
        have := ihl hrest
        simp only [List.cons_append, splitNl, if_neg hc, List.append_eq, this]

theorem mem_joinNl (ls : List (List Char)) (c : Char) (h : c ∈ joinNl ls) :
    c = '\n' ∨ ∃ l ∈ ls, c ∈ l := by
  induction ls with
  | nil => simp [joinNl] at h
  | cons l ls ih =>
    cases ls with
    | nil =>
      simp only [joinNl] at h
      exact Or.inr ⟨l, List.mem_cons_self l [], h⟩
    | cons l2 ls2 =>
      simp only [joinNl] at h
      rcases List.mem_append.mp h with h' | h'
      · exact Or.inr ⟨l, List.mem_cons_self _ _, h'⟩
      · rcases List.mem_cons.mp h' with h'' | h''
        · exact Or.inl h''
        · rcases ih h'' with h3 | ⟨x, hx, hcx⟩
          · exact Or.inl h3
          · exact Or.inr ⟨x, List.mem_cons_of_mem l hx, hcx⟩

theorem jsTrim_subset {c : Char} {l : List Char} (h : c ∈ jsTrim l) : c ∈ l := by
  unfold jsTrim at h
  rw [List.mem_reverse] at h
  have h1 := List.dropWhile_sublist (l := (l.dropWhile isJsWs).reverse) (p := isJsWs)
  have h2 := h1.subset h
  rw [List.mem_reverse] at h2
  exact (List.dropWhile_sublist (l := l) (p := isJsWs)).subset h2

theorem hasSubstr_iff (pat s : List Char) :
    hasSubstr pat s = true ↔ ∃ i, pat.isPrefixOf (s.drop i) = true := by
  induction s with
  | nil =>
    simp only [hasSubstr, List.isEmpty_iff, List.drop_nil]
    constructor
    · intro h
      exact ⟨0, by simp [h, List.isPrefixOf]⟩
    · rintro ⟨i, hi⟩
      cases pat with
      | nil => rfl
      | cons a t => simp [List.isPrefixOf] at hi
  | cons c rest ih =>
    simp only [hasSubstr, Bool.or_eq_true, ih]
    constructor
    · rintro (h | ⟨i, hi⟩)
      · exact ⟨0, by simpa using h⟩
      · exact ⟨i + 1, by simpa using hi⟩
    · rintro ⟨i, hi⟩
      cases i with
      | zero => exact Or.inl (by simpa using hi)
      | succ j => exact Or.inr ⟨j, by simpa using hi⟩

theorem isPrefixOf_drop {p t : List Char} (k : Nat) (h : p.isPrefixOf t = true) :
    (p.drop k).isPrefixOf (t.drop k) = true := by
  rw [List.isPrefixOf_iff_prefix] at h ⊢
  rcases h with ⟨r, rfl⟩
  rcases Nat.le_total k p.length with hk | hk
  · rw [List.drop_append_of_le_length hk]
    exact List.prefix_append _ _
  · rw [List.drop_eq_nil_of_le (by simpa using hk)]
    exact List.nil_prefix

theorem hasSubstr_sub {big small s : List Char} (k : Nat)
    (hk : small.isPrefixOf (big.drop k) = true)
    (h : hasSubstr big s = true) : hasSubstr small s = true := by
  rw [hasSubstr_iff] at h ⊢
  rcases h with ⟨i, hi⟩
  refine ⟨i + k, ?_⟩
  have h2 := isPrefixOf_drop k hi
  rw [List.drop_drop] at h2
  rw [List.isPrefixOf_iff_prefix] at hk h2 ⊢
  exact hk.trans h2

theorem mem_of_hasSubstr {pat s : List Char} {a : Char}
    (h : hasSubstr pat s = true) (ha : a ∈ pat) : a ∈ s := by
  rw [hasSubstr_iff] at h
  rcases h with ⟨i, hi⟩
  rw [List.isPrefixOf_iff_prefix] at hi
  exact List.drop_subset _ _ (hi.subset ha)

theorem hasSubstr_eq_false_of_not_mem {pat s : List Char} {a : Char}
    (ha : a ∈ pat) (hs : a ∉ s) : hasSubstr pat s = false := by
  by_contra h
  exact hs (mem_of_hasSubstr (Bool.of_not_eq_false h) ha)

namespace TypographyEngine

theorem replaceAllLit_of_not_hasSubstr (pat rep : List Char) :
    ∀ (f : Nat) (s : List Char), hasSubstr pat s = false →
      replaceAllLit pat rep f s = s := by
  intro f
  induction f with
  | zero => intro s _; rfl
  | succ f ih =>
    intro s hs
    cases s with
    | nil => rfl
    | cons c rest =>
      simp only [hasSubstr, Bool.or_eq_false_iff] at hs
      simp only [replaceAllLit, hs.1, Bool.false_eq_true, if_false, ih rest hs.2]

theorem replaceAll_of_not_hasSubstr (pat rep s : List Char)
    (hs : hasSubstr pat s = false) : replaceAll pat rep s = s :=
  replaceAllLit_of_not_hasSubstr pat rep _ s hs

/-- A line with no remaining `*«` and no remaining `»*` adjacency is a fixed
point of the Marker Reorderer: each of its six literal patterns contains one
of the two adjacencies, so none of the six replacements fires. -/
theorem reorderMarkers_eq_self {l : List Char}
    (h1 : hasSubstr "*«".data l = false) (h2 : hasSubstr "»*".data l = false) :
    reorderMarkers l = l := by
  have n1 : hasSubstr "***«".data l = false := by
    by_contra hx
    have hsmall : hasSubstr "*«".data l = true :=
      hasSubstr_sub 2 (by decide) (Bool.of_not_eq_false hx)
    rw [hsmall] at h1
    exact Bool.true_eq_false.mp h1
  have n2 : hasSubstr "**«".data l = false := by
    by_contra hx
    have hsmall : hasSubstr "*«".data l = true :=
      hasSubstr_sub 1 (by decide) (Bool.of_not_eq_false hx)
    rw [hsmall] at h1
    exact Bool.true_eq_false.mp h1
  have n4 : hasSubstr "»***".data l = false := by
    by_contra hx
    have hsmall : hasSubstr "»*".data l = true :=
      hasSubstr_sub 0 (by decide) (Bool.of_not_eq_false hx)
    rw [hsmall] at h2
    exact Bool.true_eq_false.mp h2
  have n5 : hasSubstr "»**".data l = false := by
    by_contra hx
    have hsmall : hasSubstr "»*".data l = true :=
      hasSubstr_sub 0 (by decide) (Bool.of_not_eq_false hx)
    rw [hsmall] at h2
    exact Bool.true_eq_false.mp h2
  simp only [reorderMarkers, replaceAll_of_not_hasSubstr _ _ _ n1,
    replaceAll_of_not_hasSubstr _ _ _ n2, replaceAll_of_not_hasSubstr _ _ _ h1,
    replaceAll_of_not_hasSubstr _ _ _ n4, replaceAll_of_not_hasSubstr _ _ _ n5,
    replaceAll_of_not_hasSubstr _ _ _ h2]

end TypographyEngine

namespace TypographyEngine

theorem extractGo_of_no_btk :
    ∀ (f : Nat) (ps : List (List Char)) (s : List Char), btk ∉ s →
      s.length ≤ f → extractGo f ps s = (s, ps) := by
  intro f
  induction f with
  | zero =>
    intro ps s hb hf
    interval_cases h : s.length
    · rw [List.length_eq_zero.mp h]; rfl
  | succ f ih =>
    intro ps s hb hf
    cases s with
    | nil => rfl
    | cons c rest =>
      have hc : c ≠ btk := fun h => hb (h ▸ List.mem_cons_self c rest)
      simp only [extractGo, if_neg hc,
        ih ps rest (fun h => hb (List.mem_cons_of_mem c h))
          (Nat.le_of_succ_le_succ hf)]

theorem extract_of_no_btk (s : List Char) (hb : btk ∉ s) : extract s = (s, []) :=
  extractGo_of_no_btk _ _ _ hb (Nat.le_succ _)

theorem matchToken_of_no_us {s : List Char} (h : '_' ∉ s) : matchToken s = none := by
  cases s with
  | nil => rfl
  | cons c rest =>
    have hc : c ≠ '_' := fun hcc => h (hcc ▸ List.mem_cons_self c rest)
    have hpre : ("__CODE_BLOCK_".data).isPrefixOf (c :: rest) = false := by
      rw [show ("__CODE_BLOCK_".data : List Char) = '_' :: "_CODE_BLOCK_".data from rfl]
      simp only [List.isPrefixOf, beq_eq_false_iff_ne.mpr (Ne.symm hc), Bool.false_and]
    simp [matchToken, hpre]

theorem restoreGo_of_no_us :
    ∀ (f : Nat) (ps : List (List Char)) (s : List Char), '_' ∉ s →
      restoreGo f ps s = s := by
  intro f
  induction f with
  | zero => intro ps s _; rfl
  | succ f ih =>
    intro ps s hu
    cases s with
    | nil => rfl
    | cons c rest =>
      simp only [restoreGo, matchToken_of_no_us hu,
        ih ps rest (fun h => hu (List.mem_cons_of_mem c h))]

theorem restore_of_no_us (ps : List (List Char)) (s : List Char) (h : '_' ∉ s) :
    restore ps s = s :=
  restoreGo_of_no_us _ ps s h

theorem isTokenLine_of_no_us {l : List Char} (h : '_' ∉ l) :
    isTokenLine l = false := by
  unfold isTokenLine
  rw [matchToken_of_no_us (fun hm => h (jsTrim_subset hm))]

theorem markerAt_of_no_star {s : List Char} (h : '*' ∉ s) (μ i : Nat)
    (hμ : 1 ≤ μ) : markerAt s μ i = false := by
  unfold markerAt
  by_contra hm
  have hp := Bool.of_not_eq_false hm
  rw [List.isPrefixOf_iff_prefix] at hp
  have hmem : '*' ∈ List.replicate μ '*' := List.mem_replicate.mpr ⟨by omega, rfl⟩
  exact h (List.drop_subset _ _ (hp.subset hmem))

theorem mBoth_of_no_star {s : List Char} (h : '*' ∉ s) (μ : Nat) (hμ : 1 ≤ μ)
    (p : Nat) : mBoth s μ p = none := by
  unfold mBoth
  rw [markerAt_of_no_star h μ p hμ]
  rfl

theorem mLead_of_no_star {s : List Char} (h : '*' ∉ s) (μ : Nat) (hμ : 1 ≤ μ)
    (p : Nat) : mLead s μ p = none := by
  unfold mLead
  rw [markerAt_of_no_star h μ p hμ]
  rfl

theorem mTrail_of_no_star {s : List Char} (h : '*' ∉ s) (μ : Nat) (hμ : 1 ≤ μ)
    (p : Nat) : mTrail s μ p = none := by
  unfold mTrail
  rw [markerAt_of_no_star h μ p hμ]
  rfl

theorem collapseGo_of_none {matchAt : List Char → Nat → Option (List Char × Nat)}
    {s : List Char} (h : ∀ p, matchAt s p = none) (μ f : Nat) :
    collapseGo matchAt μ f s = s := by
  cases f with
  | zero => rfl
  | succ f =>
    have hfind : findLeftmost matchAt s = none := by
      unfold findLeftmost
      rw [List.findSome?_eq_none_iff]
      intro p _
      rw [h p]
      rfl
    simp only [collapseGo, hfind]

theorem bulletCheck_of_no_star {l : List Char} (h : '*' ∉ l) :
    bulletCheck l = false := by
  unfold bulletCheck
  have hsub : ∀ c ∈ l.dropWhile isJsWs, c ∈ l :=
    fun c hc => (List.dropWhile_sublist (l := l) (p := isJsWs)).subset hc
  cases hd : l.dropWhile isJsWs with
  | nil => rfl
  | cons c rest =>
    cases rest with
    | nil =>
      cases hc : decide (c = '*') with
      | false =>
        have : c ≠ '*' := of_decide_eq_false hc
        simp [this]
      | true =>
        exact absurd (hsub c (hd ▸ List.mem_cons_self c [])) (of_decide_eq_true hc ▸ h)
    | cons d rest2 =>
      cases hc : decide (c = '*') with
      | false =>
        have : c ≠ '*' := of_decide_eq_false hc
        simp [this]
      | true =>
        exact absurd (hsub c (hd ▸ List.mem_cons_self c (d :: rest2)))
          (of_decide_eq_true hc ▸ h)

theorem collapseGo_mBoth_of_no_star (μ f : Nat) (hμ : 1 ≤ μ) {l : List Char}
    (h : '*' ∉ l) : collapseGo (fun s p => mBoth s μ p) μ f l = l := by
  cases f with
  | zero => rfl
  | succ f =>
    have hfind : findLeftmost (fun s p => mBoth s μ p) l = none := by
      unfold findLeftmost
      rw [List.findSome?_eq_none_iff]
      intro p _
      show (mBoth l μ p).map _ = none
      rw [mBoth_of_no_star h μ hμ p]
      rfl
    simp only [collapseGo, hfind]

theorem collapseGo_mLead_of_no_star (μ f : Nat) (hμ : 1 ≤ μ) {l : List Char}
    (h : '*' ∉ l) : collapseGo (fun s p => mLead s μ p) μ f l = l := by
  cases f with
  | zero => rfl
  | succ f =>
    have hfind : findLeftmost (fun s p => mLead s μ p) l = none := by
      unfold findLeftmost
      rw [List.findSome?_eq_none_iff]
      intro p _
      show (mLead l μ p).map _ = none
      rw [mLead_of_no_star h μ hμ p]
      rfl
    simp only [collapseGo, hfind]

theorem collapseGo_mTrail_of_no_star (μ f : Nat) (hμ : 1 ≤ μ) {l : List Char}
    (h : '*' ∉ l) : collapseGo (fun s p => mTrail s μ p) μ f l = l := by
  cases f with
  | zero => rfl
  | succ f =>
    have hfind : findLeftmost (fun s p => mTrail s μ p) l = none := by
      unfold findLeftmost
      rw [List.findSome?_eq_none_iff]
      intro p _
      show (mTrail l μ p).map _ = none
      rw [mTrail_of_no_star h μ hμ p]
      rfl
    simp only [collapseGo, hfind]

theorem fixEmphasisSpaces_of_no_star {l : List Char} (h : '*' ∉ l) :
    fixEmphasisSpaces l = l := by
  simp only [fixEmphasisSpaces, collapse,
    collapseGo_mBoth_of_no_star 3 _ (by omega) h,
    collapseGo_mLead_of_no_star 3 _ (by omega) h,
    collapseGo_mTrail_of_no_star 3 _ (by omega) h,
    collapseGo_mBoth_of_no_star 2 _ (by omega) h,
    collapseGo_mLead_of_no_star 2 _ (by omega) h,
    collapseGo_mTrail_of_no_star 2 _ (by omega) h,
    collapseGo_mBoth_of_no_star 1 _ (by omega) h,
    collapseGo_mLead_of_no_star 1 _ (by omega) h,
    collapseGo_mTrail_of_no_star 1 _ (by omega) h,
    bulletCheck_of_no_star h, Bool.false_eq_true, if_false]

end TypographyEngine

namespace TypographyEngine

theorem alnum_ne_specials {d : Char} (h : isAlphanumeric d = true) :
    d ≠ '«' ∧ d ≠ '»' ∧ d ≠ '\'' ∧ d ≠ '"' := by
  refine ⟨?_, ?_, ?_, ?_⟩ <;> rintro rfl <;> revert h <;> decide

theorem quoteGo_open (prev : Char) (b : Bool) (r : List Char) :
    quoteGo prev b ('«' :: r) =
      ('«' :: (quoteGo '«' true r).1, (quoteGo '«' true r).2) := by
  simp [quoteGo]

theorem quoteGo_close (prev : Char) (b : Bool) (r : List Char) :
    quoteGo prev b ('»' :: r) =
      ('»' :: (quoteGo '»' false r).1, (quoteGo '»' false r).2) := by
  simp [quoteGo]

theorem quoteGo_kept {d prev : Char} {r : List Char} (hq : d = '\'' ∨ d = '"')
    (hpa : isAlphanumeric prev = true) (hna : isAlphanumeric (r.headD ' ') = true)
    (b : Bool) :
    quoteGo prev b (d :: r) = (d :: (quoteGo d b r).1, (quoteGo d b r).2) := by
  have h1 : d ≠ '«' := by rcases hq with h | h <;> subst h <;> decide
  have h2 : d ≠ '»' := by rcases hq with h | h <;> subst h <;> decide
  have hc3 : (decide (d = '\'') || decide (d = '"')) = true := by
    rcases hq with h | h <;> simp [h]
  have hc4 : (isAlphanumeric prev && isAlphanumeric (r.headD ' ')) = true := by
    rw [hpa, hna]
    rfl
  simp only [quoteGo, if_neg h1, if_neg h2, if_pos hc3, if_pos hc4]

theorem quoteGo_boundary_open {d prev : Char} {r : List Char}
    (hq : d = '\'' ∨ d = '"')
    (h4 : (isAlphanumeric prev && isAlphanumeric (r.headD ' ')) = false) :
    quoteGo prev true (d :: r) =
      ('»' :: (quoteGo d false r).1, (quoteGo d false r).2) := by
  have h1 : d ≠ '«' := by rcases hq with h | h <;> subst h <;> decide
  have h2 : d ≠ '»' := by rcases hq with h | h <;> subst h <;> decide
  have hc3 : (decide (d = '\'') || decide (d = '"')) = true := by
    rcases hq with h | h <;> simp [h]
  simp only [quoteGo, if_neg h1, if_neg h2, if_pos hc3, h4, Bool.false_eq_true,
    if_false]
  exact if_pos trivial

theorem quoteGo_boundary_closed {d prev : Char} {r : List Char}
    (hq : d = '\'' ∨ d = '"')
    (h4 : (isAlphanumeric prev && isAlphanumeric (r.headD ' ')) = false) :
    quoteGo prev false (d :: r) =
      ('«' :: (quoteGo d true r).1, (quoteGo d true r).2) := by
  have h1 : d ≠ '«' := by rcases hq with h | h <;> subst h <;> decide
  have h2 : d ≠ '»' := by rcases hq with h | h <;> subst h <;> decide
  have hc3 : (decide (d = '\'') || decide (d = '"')) = true := by
    rcases hq with h | h <;> simp [h]
  simp only [quoteGo, if_neg h1, if_neg h2, if_pos hc3, h4, Bool.false_eq_true,
    if_false]

theorem quoteGo_other {d : Char} (h1 : d ≠ '«') (h2 : d ≠ '»')
    (h3 : ¬(d = '\'' ∨ d = '"')) (prev : Char) (b : Bool) (r : List Char) :
    quoteGo prev b (d :: r) = (d :: (quoteGo d b r).1, (quoteGo d b r).2) := by
  rcases not_or.mp h3 with ⟨ha, hb⟩
  have hc3 : (decide (d = '\'') || decide (d = '"')) = false := by simp [ha, hb]
  simp only [quoteGo, if_neg h1, if_neg h2, hc3, Bool.false_eq_true, if_false]

theorem quoteGo_cons_alnum {d : Char} (hd : isAlphanumeric d = true)
    (prev : Char) (b : Bool) (r : List Char) :
    quoteGo prev b (d :: r) = (d :: (quoteGo d b r).1, (quoteGo d b r).2) := by
  obtain ⟨n1, n2, n3, n4⟩ := alnum_ne_specials hd
  exact quoteGo_other n1 n2 (by rintro (h | h) <;> [exact n3 h; exact n4 h]) prev b r

theorem quoteGo_mem (l : List Char) : ∀ (prev : Char) (b : Bool) (c : Char),
    c ∈ (quoteGo prev b l).1 → c ∈ l ∨ c = '«' ∨ c = '»' := by
  induction l with
  | nil => intro prev b c h; simp [quoteGo] at h
  | cons d rest ih =>
    intro prev b c h
    simp only [quoteGo] at h
    split_ifs at h <;>
    · rcases List.mem_cons.mp h with hc | hc
      · first
        | exact Or.inr (Or.inl hc)
        | exact Or.inr (Or.inr hc)
        | exact Or.inl (hc ▸ List.mem_cons_self _ _)
      · rcases ih _ _ c hc with h' | h'
        · exact Or.inl (List.mem_cons_of_mem _ h')
        · exact Or.inr h'

theorem quoteGo_length (l : List Char) : ∀ (prev : Char) (b : Bool),
    (quoteGo prev b l).1.length = l.length := by
  induction l with
  | nil => intro prev b; rfl
  | cons d rest ih =>
    intro prev b
    simp only [quoteGo]
    split_ifs <;> simp [ih]

/--
Stability of the quote scan: scanning its own output (with an equal incoming
state, and a previous-character that agrees whenever it is alphanumeric)
changes nothing and ends in the same state.  Kept straight quotes still have
the same alphanumeric neighbours, emitted guillemets force exactly the state
the first pass recorded, and all other characters are inert.
-/
theorem quoteGo_stable (l : List Char) : ∀ (prev prev' : Char) (b : Bool),
    (isAlphanumeric prev = true → prev' = prev) →
    quoteGo prev' b (quoteGo prev b l).1 = ((quoteGo prev b l).1, (quoteGo prev b l).2) := by
  induction l with
  | nil => intro prev prev' b _; rfl
  | cons d rest ih =>
    intro prev prev' b hp
    by_cases h1 : d = '«'
    · subst h1
      rw [quoteGo_open, quoteGo_open, ih '«' '«' true (fun _ => rfl)]
    · by_cases h2 : d = '»'
      · subst h2
        rw [quoteGo_close, quoteGo_close, ih '»' '»' false (fun _ => rfl)]
      · by_cases h3 : d = '\'' ∨ d = '"'
        · have hdna : isAlphanumeric d = false := by
            rcases h3 with h | h <;> subst h <;> decide
          have hvac : ∀ x : Char, isAlphanumeric d = true → x = d := by
            intro x hda
            rw [hdna] at hda
            exact absurd hda (by decide)
          cases h4 : (isAlphanumeric prev && isAlphanumeric (rest.headD ' ')) with
          | true =>
            have hpn : isAlphanumeric prev = true ∧
                isAlphanumeric (rest.headD ' ') = true := by simpa using h4
            obtain ⟨hpa, hna⟩ := hpn
            have hp' : prev' = prev := hp hpa
            cases rest with
            | nil => exact absurd hna (by decide)
            | cons e rest2 =>
              have hne : isAlphanumeric e = true := by simpa using hna
              have hxh : (quoteGo d b (e :: rest2)).1.headD ' ' = e := by
                rw [quoteGo_cons_alnum hne]
                rfl
              rw [quoteGo_kept h3 hpa hna, hp',
                quoteGo_kept h3 hpa (by rw [hxh]; exact hne),
                ih d d b (fun _ => rfl)]
          | false =>
            cases b with
            | true =>
              rw [quoteGo_boundary_open h3 h4, quoteGo_close,
                ih d '»' false (fun hda => hvac '»' hda)]
            | false =>
              rw [quoteGo_boundary_closed h3 h4, quoteGo_open,
                ih d '«' true (fun hda => hvac '«' hda)]
        · rw [quoteGo_other h1 h2 h3, quoteGo_other h1 h2 h3,
            ih d d b (fun _ => rfl)]

end TypographyEngine

namespace TypographyEngine

theorem reorderMarkers_of_no_star {m : List Char} (h : '*' ∉ m) :
    reorderMarkers m = m := by
  have r := fun (pat rep : List Char) (hp : '*' ∈ pat) =>
    replaceAll_of_not_hasSubstr pat rep m (hasSubstr_eq_false_of_not_mem hp h)
  simp only [reorderMarkers,
    r "***«".data "«***".data (by decide), r "**«".data "«**".data (by decide),
    r "*«".data "«*".data (by decide), r "»***".data "***»".data (by decide),
    r "»**".data "**»".data (by decide), r "»*".data "*»".data (by decide)]

theorem processLine_eq {l : List Char} (hs : '*' ∉ l) (hu : '_' ∉ l) (b : Bool) :
    processLine b l = ((quoteGo ' ' b l).1, (quoteGo ' ' b l).2) := by
  have hq : '*' ∉ (quoteGo ' ' b l).1 := by
    intro hm
    rcases quoteGo_mem l ' ' b '*' hm with h | h | h
    · exact hs h
    · exact absurd h (by decide)
    · exact absurd h (by decide)
  simp only [processLine, isTokenLine_of_no_us hu, Bool.false_eq_true, if_false,
    fixEmphasisSpaces_of_no_star hs, reorderMarkers_of_no_star hq]

theorem quoteGo_fst_no_star {l : List Char} (hs : '*' ∉ l) (prev : Char)
    (b : Bool) : '*' ∉ (quoteGo prev b l).1 := by
  intro hm
  rcases quoteGo_mem l prev b '*' hm with h | h | h
  · exact hs h
  · exact absurd h (by decide)
  · exact absurd h (by decide)

theorem quoteGo_fst_no_us {l : List Char} (hu : '_' ∉ l) (prev : Char)
    (b : Bool) : '_' ∉ (quoteGo prev b l).1 := by
  intro hm
  rcases quoteGo_mem l prev b '_' hm with h | h | h
  · exact hu h
  · exact absurd h (by decide)
  · exact absurd h (by decide)

theorem processLine_stable {l : List Char} (hs : '*' ∉ l) (hu : '_' ∉ l)
    (b : Bool) : processLine b (processLine b l).1 = processLine b l := by
  rw [processLine_eq hs hu]
  rw [processLine_eq (quoteGo_fst_no_star hs ' ' b) (quoteGo_fst_no_us hu ' ' b)]
  rw [quoteGo_stable l ' ' ' ' b (fun _ => rfl)]

theorem processLines_stable (ls : List (List Char)) : ∀ (b : Bool),
    (∀ l ∈ ls, '*' ∉ l ∧ '_' ∉ l) →
    processLines b (processLines b ls).1 = processLines b ls := by
  induction ls with
  | nil => intro b _; rfl
  | cons l ls ih =>
    intro b hc
    obtain ⟨hs, hu⟩ := hc l (List.mem_cons_self l ls)
    have hctail := fun x hx => hc x (List.mem_cons_of_mem l hx)
    simp only [processLines]
    rw [processLine_stable hs hu b]
    rw [show (processLine b l).2 = (processLine b l).2 from rfl]
    have hst : (processLine b (processLine b l).1).2 = (processLine b l).2 := by
      rw [processLine_stable hs hu b]
    rw [ih (processLine b l).2 hctail]

theorem processLines_chars (ls : List (List Char)) : ∀ (b : Bool),
    (∀ l ∈ ls, '*' ∉ l ∧ '_' ∉ l) →
    ∀ o ∈ (processLines b ls).1, ∀ c ∈ o, (∃ l ∈ ls, c ∈ l) ∨ c = '«' ∨ c = '»' := by
  induction ls with
  | nil => intro b _ o ho; simp [processLines] at ho
  | cons l ls ih =>
    intro b hc o ho c hco
    obtain ⟨hs, hu⟩ := hc l (List.mem_cons_self l ls)
    simp only [processLines] at ho
    rcases List.mem_cons.mp ho with h | h
    · rw [processLine_eq hs hu b] at h
      subst h
      rcases quoteGo_mem l ' ' b c hco with h' | h' | h'
      · exact Or.inl ⟨l, List.mem_cons_self l ls, h'⟩
      · exact Or.inr (Or.inl h')
      · exact Or.inr (Or.inr h')
    · rcases ih (processLine b l).2 (fun x hx => hc x (List.mem_cons_of_mem l hx))
        o h c hco with h' | h'
      · rcases h' with ⟨x, hx, hcx⟩
        exact Or.inl ⟨x, List.mem_cons_of_mem l hx, hcx⟩
      · exact Or.inr h'

theorem processLines_length (ls : List (List Char)) : ∀ (b : Bool),
    (processLines b ls).1.length = ls.length := by
  induction ls with
  | nil => intro b; rfl
  | cons l ls ih => intro b; simp [processLines, ih]

/-- The state entering the tail of the line list is exactly the state leaving
its head block: the dialogue flag is threaded, never reset. -/
theorem processLines_append (ls₁ ls₂ : List (List Char)) : ∀ (b : Bool),
    processLines b (ls₁ ++ ls₂) =
      ((processLines b ls₁).1 ++ (processLines (processLines b ls₁).2 ls₂).1,
        (processLines (processLines b ls₁).2 ls₂).2) := by
  induction ls₁ with
  | nil => intro b; rfl
  | cons l ls ih =>
    intro b
    simp only [List.cons_append, processLines, List.append_eq, ih]

end TypographyEngine

theorem mem_descRange {l n : Nat} : l ∈ descRange n ↔ 1 ≤ l ∧ l ≤ n := by
  unfold descRange
  rw [List.mem_map]
  constructor
  · rintro ⟨i, hi, rfl⟩
    rw [List.mem_range] at hi
    omega
  · rintro ⟨h1, h2⟩
    exact ⟨n - l, List.mem_range.mpr (by omega), by omega⟩

theorem takeWhile_get? {p : Char → Bool} (xs : List Char) : ∀ (j : Nat),
    j < (xs.takeWhile p).length → ∃ c, xs.get? j = some c ∧ p c = true := by
  induction xs with
  | nil => intro j h; simp [List.takeWhile] at h
  | cons c t ih =>
    intro j h
    cases hc : p c with
    | false => rw [List.takeWhile_cons, hc] at h; simp at h
    | true =>
      rw [List.takeWhile_cons, hc] at h
      cases j with
      | zero => exact ⟨c, rfl, hc⟩
      | succ j => exact ih j (by simpa using h)

theorem le_takeWhile_length {p : Char → Bool} (xs : List Char) : ∀ (l : Nat),
    l ≤ xs.length → (∀ j, j < l → ∀ c, xs.get? j = some c → p c = true) →
    l ≤ (xs.takeWhile p).length := by
  induction xs with
  | nil => intro l hl _; simpa using hl
  | cons c t ih =>
    intro l hl hall
    cases l with
    | zero => exact Nat.zero_le _
    | succ l =>
      have hc : p c = true := hall 0 (Nat.succ_pos l) c rfl
      rw [List.takeWhile_cons, hc, if_pos (by trivial)]
      simp only [List.length_cons, Nat.succ_le_succ_iff]
      exact ih l (by simp only [List.length_cons] at hl; omega)
        (fun j hj d hd => hall (j + 1) (by omega) d hd)

theorem takeWhile_append_sat {p : Char → Bool} {d : Char} (hd : p d = false)
    (ds : List Char) (hds : ∀ c ∈ ds, p c = true) (t : List Char) :
    (ds ++ d :: t).takeWhile p = ds := by
  induction ds with
  | nil => simp [List.takeWhile_cons, hd]
  | cons a as ih =>
    have ha : p a = true := hds a (List.mem_cons_self a as)
    simp only [List.cons_append, List.takeWhile_cons, ha]
    rw [ih (fun c hc => hds c (List.mem_cons_of_mem a hc))]
    exact if_pos (by trivial)

namespace TypographyEngine

theorem restoreGo_nil (f : Nat) (ps : List (List Char)) :
    restoreGo f ps [] = [] := by
  cases f <;> rfl

theorem matchToken_token (ds : List Char) (hne : ds ≠ [])
    (hd : ∀ c ∈ ds, isDigitCh c = true) :
    matchToken ("__CODE_BLOCK_".data ++ ds ++ "__".data) =
      some (digitsToNat ds, 13 + ds.length + 2) := by
  have hpre : ("__CODE_BLOCK_".data).isPrefixOf
      ("__CODE_BLOCK_".data ++ ds ++ "__".data) = true := by
    rw [List.isPrefixOf_iff_prefix]
    exact (List.prefix_append _ _).trans (List.prefix_append _ _)
  have hdrop13 : ("__CODE_BLOCK_".data ++ ds ++ "__".data).drop 13 =
      ds ++ "__".data := by
    rw [List.append_assoc,
      show (13 : Nat) = ("__CODE_BLOCK_".data : List Char).length from rfl,
      List.drop_left]
  have htw : (ds ++ "__".data).takeWhile isDigitCh = ds := by
    have : ("__".data : List Char) = '_' :: ['_'] := rfl
    rw [this]
    exact takeWhile_append_sat (by decide) ds hd ['_']
  have hie : ds.isEmpty = false := by
    cases ds with
    | nil => exact absurd rfl hne
    | cons a as => rfl
  have hdrop2 : ("__CODE_BLOCK_".data ++ ds ++ "__".data).drop (13 + ds.length) =
      "__".data := by
    have h13 : 13 + ds.length = (("__CODE_BLOCK_".data : List Char) ++ ds).length := by
      rw [List.length_append]
      rw [show (("__CODE_BLOCK_".data : List Char)).length = 13 from rfl]
    rw [h13, List.drop_left]
  unfold matchToken
  rw [if_pos hpre, hdrop13, htw]
  rw [if_neg (by rw [hie]; exact fun h => absurd h (by decide))]
  rw [hdrop2, if_pos (by decide)]

end TypographyEngine

/-! ### The claims -/

/-- C4 (amended): the heading-boundary matcher of `Parser.getChapters` — the
regex `(?:^|\n)####\s+(.+)` — matches exactly at those positions `p` that
start the text or follow a newline, carry four hashes, and are followed by a
nonempty run of *whitespace* characters (`\s`: spaces, tabs, newlines, ...)
after some prefix of which stands at least one character that `.` can match
(any character other than a line terminator).  In particular a tab after the
hashes is accepted, and the "title" character may sit on a *later* line than
the hashes; four hashes followed only by newlines up to a point where nothing
`.`-matchable remains is not a boundary. -/
theorem c4_boundary_characterization (s : List Char) :
    Parser.hasHeading s = true ↔
      ∃ p q : Nat, (p = 0 ∨ s.get? (p - 1) = some '\n') ∧
        "####".data.isPrefixOf (s.drop p) = true ∧
        p + 5 ≤ q ∧
        (∀ i, p + 4 ≤ i → i < q → ∃ c, s.get? i = some c ∧ isJsWs c = true) ∧
        ∃ c, s.get? q = some c ∧ isDot c = true := by
  unfold Parser.hasHeading
  rw [List.any_eq_true]
  constructor
  · rintro ⟨p, hpr, hp⟩
    rw [Bool.and_eq_true] at hp
    obtain ⟨hls, hha⟩ := hp
    unfold Parser.headingAt at hha
    rw [Bool.and_eq_true] at hha
    obtain ⟨hpre, hany⟩ := hha
    rw [List.any_eq_true] at hany
    obtain ⟨l, hlmem, hcl⟩ := hany
    obtain ⟨hl1, hlw⟩ := mem_descRange.mp hlmem
    cases hq : s.get? (p + 4 + l) with
    | none => rw [hq] at hcl; exact absurd hcl (by decide)
    | some c =>
      rw [hq] at hcl
      refine ⟨p, p + 4 + l, ?_, hpre, by omega, ?_, c, hq, hcl⟩
      · unfold Parser.lineStartAt at hls
        by_cases h0 : p = 0
        · exact Or.inl h0
        · rw [if_neg h0] at hls
          exact Or.inr (beq_iff_eq.mp hls)
      · intro i h4 hiq
        have hj : i - (p + 4) < (List.takeWhile isJsWs (s.drop (p + 4))).length := by
          unfold TypographyEngine.wsRun at hlw
          omega
        obtain ⟨c', hgc, hwc⟩ := takeWhile_get? (s.drop (p + 4)) (i - (p + 4)) hj
        rw [List.get?_drop] at hgc
        rw [show p + 4 + (i - (p + 4)) = i from by omega] at hgc
        exact ⟨c', hgc, hwc⟩
  · rintro ⟨p, q, hls, hpre, h5, hws, c, hqc, hdot⟩
    obtain ⟨hqlt, -⟩ := List.get?_eq_some.mp hqc
    have hplen : p + 4 ≤ s.length := by
      have := (List.isPrefixOf_iff_prefix.mp hpre).length_le
      rw [List.length_drop] at this
      have h4 : ("####".data : List Char).length = 4 := rfl
      omega
    refine ⟨p, List.mem_range.mpr (by omega), ?_⟩
    rw [Bool.and_eq_true]
    constructor
    · unfold Parser.lineStartAt
      by_cases h0 : p = 0
      · rw [if_pos h0]
      · rw [if_neg h0]
        exact beq_iff_eq.mpr (hls.resolve_left h0)
    · unfold Parser.headingAt
      rw [Bool.and_eq_true]
      refine ⟨hpre, ?_⟩
      rw [List.any_eq_true]
      refine ⟨q - (p + 4), ?_, ?_⟩
      · refine mem_descRange.mpr ⟨by omega, ?_⟩
        unfold TypographyEngine.wsRun
        refine le_takeWhile_length (s.drop (p + 4)) _ ?_ ?_
        · rw [List.length_drop]; omega
        · intro j hj c' hc'
          rw [List.get?_drop] at hc'
          obtain ⟨c'', hg, hw⟩ := hws (p + 4 + j) (by omega) (by omega)
          rw [hg] at hc'
          rw [← Option.some.injEq c'' c' |>.mp hc']
          exact hw
      · rw [show p + 4 + (q - (p + 4)) = q from by omega, hqc]
        exact hdot

open TypographyEngine Parser

/-- C2 (amended): the full pipeline is idempotent on every manuscript that
contains no asterisk, no backtick and no underscore — no emphasis marker to
collapse or reorder, no code run to extract, no placeholder text to collide
with.  (In general `process` is **not** idempotent: see the counterexample
theorem.)  On such text a second pass re-reads its own guillemets, keeps every
kept apostrophe (its alphanumeric neighbours are unchanged), and re-threads
exactly the same dialogue states across lines. -/
theorem c2_process_idempotent_on_plain (s : String)
    (h : ∀ c ∈ s.data, c ≠ '*' ∧ c ≠ btk ∧ c ≠ '_') :
    process (process s) = process s := by
  have hstar : '*' ∉ s.data := fun hm => (h _ hm).1 rfl
  have hbtk : btk ∉ s.data := fun hm => (h _ hm).2.1 rfl
  have hus : '_' ∉ s.data := fun hm => (h _ hm).2.2 rfl
  have key : processL (processL s.data) = processL s.data := by
    by_cases hnil : s.data.isEmpty = true
    · rw [List.isEmpty_iff.mp hnil]
      rfl
    · have hie : s.data.isEmpty = false := Bool.eq_false_iff.mpr hnil
      have hconds : ∀ l ∈ splitNl s.data, '*' ∉ l ∧ '_' ∉ l :=
        fun l hl => ⟨fun hm => hstar (mem_of_mem_splitNl _ l hl '*' hm),
                     fun hm => hus (mem_of_mem_splitNl _ l hl '_' hm)⟩
      have hoc := processLines_chars (splitNl s.data) false hconds
      have hjoin_no : ∀ c ∈ joinNl (processLines false (splitNl s.data)).1,
          c = '\n' ∨ c ∈ s.data ∨ c = '«' ∨ c = '»' := by
        intro c hc
        rcases mem_joinNl _ c hc with hcn | ⟨o, ho, hco⟩
        · exact Or.inl hcn
        · rcases hoc o ho c hco with ⟨l, hl, hcl⟩ | h'
          · exact Or.inr (Or.inl (mem_of_mem_splitNl _ l hl c hcl))
          · exact Or.inr (Or.inr h')
      have hjus : '_' ∉ joinNl (processLines false (splitNl s.data)).1 := by
        intro hm
        rcases hjoin_no '_' hm with hx | hx | hx | hx
        · exact absurd hx (by decide)
        · exact hus hx
        · exact absurd hx (by decide)
        · exact absurd hx (by decide)
      have hjbtk : btk ∉ joinNl (processLines false (splitNl s.data)).1 := by
        intro hm
        rcases hjoin_no btk hm with hx | hx | hx | hx
        · exact absurd hx (by decide)
        · exact hbtk hx
        · exact absurd hx (by decide)
        · exact absurd hx (by decide)
      have h1 : processL s.data = joinNl (processLines false (splitNl s.data)).1 := by
        simp only [processL, hie, Bool.false_eq_true, if_false,
          extract_of_no_btk s.data hbtk]
        exact restore_of_no_us [] _ hjus
      have h2 : processL (joinNl (processLines false (splitNl s.data)).1) =
          joinNl (processLines false (splitNl s.data)).1 := by
        by_cases hjo : (joinNl (processLines false (splitNl s.data)).1).isEmpty = true
        · unfold processL
          rw [if_pos hjo]
        · have hjoe : (joinNl (processLines false (splitNl s.data)).1).isEmpty = false :=
            Bool.eq_false_iff.mpr hjo
          have houtsnl : ∀ o ∈ (processLines false (splitNl s.data)).1, '\n' ∉ o := by
            intro o ho hm
            rcases hoc o ho '\n' hm with ⟨l, hl, hcl⟩ | h'
            · exact not_nl_of_mem_splitNl s.data l hl hcl
            · rcases h' with h' | h' <;> exact absurd h' (by decide)
          have houtsne : (processLines false (splitNl s.data)).1 ≠ [] := by
            intro hh
            have h0 : (splitNl s.data).length = 0 := by
              rw [← processLines_length (splitNl s.data) false, hh]
              rfl
            exact splitNl_ne_nil s.data (List.length_eq_zero.mp h0)
          have hsplit2 := splitNl_joinNl _ houtsne houtsnl
          simp only [processL, hjoe, Bool.false_eq_true, if_false,
            extract_of_no_btk _ hjbtk, hsplit2,
            processLines_stable (splitNl s.data) false hconds]
          exact restore_of_no_us [] _ hjus
      rw [h1, h2]
  calc process (process s)
      = String.mk (processL (processL s.data)) := rfl
    _ = String.mk (processL s.data) := by rw [key]
    _ = process s := rfl

/-- C2 (counterexample): the normalization pipeline is *not* idempotent.  On
`»»*` the single-pass `»*` → `*»` rewrite of the Marker Reorderer produces
`»*»`, which still contains a `»*` adjacency; the second pass rewrites it
again, to `*»»`. -/
theorem c2_process_not_idempotent :
    process (process "»»*") ≠ process "»»*" := by decide

/-- C2 witness: the amended idempotence applied to a concrete plain
manuscript. -/
theorem c2_idempotent_on_plain_witness :
    process (process "He said \"hi\" today") = process "He said \"hi\" today" :=
  c2_process_idempotent_on_plain "He said \"hi\" today" (by decide)

/-- C1: code regions are *not* inviolable.  The extraction regex
`/(```*?(?:```|$)|`+`)/g` — its bracketed character classes are missing from
the source — matches only runs of backticks, so the *content* of the fenced
block is left exposed: the quotes inside the fence come out as guillemets and
the original fragment text does not survive into the output. -/
theorem c1_code_fragment_rewritten :
    process "```\n\"a\"\n```" = "```\n«a»\n```" ∧
    hasSubstr "\"a\"".data (process "```\n\"a\"\n```").data = false :=
  ⟨by decide, by decide⟩

/-- C3: the segmentation/reassembly round trip cannot run: on the claim's own
input `Parser.getChapters` reaches `firstMatch.trim()` — `.trim()` on the
regex match array, the capture index having been lost — and throws, while
`Parser.reassemble` does produce exactly the claimed manuscript. -/
theorem c3_roundtrip_throws :
    getChapters "#### A\n\ntext1\n\n#### B\n\ntext2" = Except.error jsMatchTrimError ∧
    reassemble [⟨"A", "text1"⟩, ⟨"B", "text2"⟩] =
      "#### A\n\ntext1\n\n\n#### B\n\ntext2" :=
  ⟨rfl, by decide⟩

/-- C4 (counterexample): `####` followed by a tab and a title is *not* a
boundary under the claim's wording (one or more spaces required), but the
source regex `####\s+(.+)` matches it — observably, `getChapters` reaches the
throwing path instead of the claimed single-chapter fallback. -/
theorem c4_boundary_counterexample :
    specHeadingBoundary "####\tT" = false ∧
    hasHeading "####\tT".data = true ∧
    getChapters "####\tT" = Except.error jsMatchTrimError :=
  ⟨by decide, by decide, rfl⟩

/-- C4 witness: the amended characterization applied at `####\tT`. -/
theorem c4_characterization_witness :
    ∃ p q : Nat, (p = 0 ∨ ("####\tT".data : List Char).get? (p - 1) = some '\n') ∧
      "####".data.isPrefixOf ("####\tT".data.drop p) = true ∧ p + 5 ≤ q ∧
      (∀ i, p + 4 ≤ i → i < q →
        ∃ c, "####\tT".data.get? i = some c ∧ isJsWs c = true) ∧
      ∃ c, "####\tT".data.get? q = some c ∧ isDot c = true :=
  (c4_boundary_characterization "####\tT".data).mp (by decide)

/-- C5: quote classification during the left-to-right scan.  A straight
apostrophe or double quote between two alphanumeric neighbours (line boundary
reading as a space) is emitted unchanged and leaves the state alone; any
other straight quote becomes `»` when the dialogue state is open and `«` when
it is closed, toggling the state; literal guillemets pass through and force
the state open resp. closed.  Concretely, `l'arbre` keeps its apostrophe and
`'tis` gains an opening guillemet. -/
theorem c5_quote_classification :
    (∀ (prev : Char) (b : Bool) (c : Char) (rest : List Char),
        (c = '\'' ∨ c = '"') → isAlphanumeric prev = true →
        isAlphanumeric (rest.headD ' ') = true →
        quoteGo prev b (c :: rest) =
          (c :: (quoteGo c b rest).1, (quoteGo c b rest).2)) ∧
    (∀ (prev : Char) (c : Char) (rest : List Char),
        (c = '\'' ∨ c = '"') →
        (isAlphanumeric prev && isAlphanumeric (rest.headD ' ')) = false →
        quoteGo prev true (c :: rest) =
          ('»' :: (quoteGo c false rest).1, (quoteGo c false rest).2) ∧
        quoteGo prev false (c :: rest) =
          ('«' :: (quoteGo c true rest).1, (quoteGo c true rest).2)) ∧
    (∀ (prev : Char) (b : Bool) (rest : List Char),
        quoteGo prev b ('«' :: rest) =
          ('«' :: (quoteGo '«' true rest).1, (quoteGo '«' true rest).2) ∧
        quoteGo prev b ('»' :: rest) =
          ('»' :: (quoteGo '»' false rest).1, (quoteGo '»' false rest).2)) ∧
    process "l'arbre" = "l'arbre" ∧ process "'tis" = "«tis" := by
  refine ⟨?_, ?_, ?_, by decide, by decide⟩
  · intro prev b c rest hq hpa hna
    exact quoteGo_kept hq hpa hna b
  · intro prev c rest hq h4
    exact ⟨quoteGo_boundary_open hq h4, quoteGo_boundary_closed hq h4⟩
  · intro prev b rest
    exact ⟨quoteGo_open prev b rest, quoteGo_close prev b rest⟩

/-- C5 witness: the kept-apostrophe clause applied inside `l'arbre`. -/
theorem c5_quote_classification_witness :
    quoteGo 'l' false ('\'' :: ['a']) =
      ('\'' :: (quoteGo '\'' false ['a']).1, (quoteGo '\'' false ['a']).2) :=
  c5_quote_classification.1 'l' false '\'' ['a'] (Or.inl rfl) (by decide) (by decide)

/-- C6: the dialogue state is one flag threaded through the whole manuscript:
processing `ls₁ ++ ls₂` processes `ls₂` starting exactly from the state in
which `ls₁` ended (never a reset at a line or paragraph boundary); two
straight-quote pairs on one line yield two independent guillemet pairs; an
unbalanced line leaves the state open into the following line or paragraph,
without any error. -/
theorem c6_dialogue_state_threading :
    (∀ (b : Bool) (ls₁ ls₂ : List (List Char)),
        processLines b (ls₁ ++ ls₂) =
          ((processLines b ls₁).1 ++ (processLines (processLines b ls₁).2 ls₂).1,
            (processLines (processLines b ls₁).2 ls₂).2)) ∧
    process "He said \"hi\" and \"bye\"" = "He said «hi» and «bye»" ∧
    process "\"a\nb\"" = "«a\nb»" ∧
    process "\"a\n\nb\"" = "«a\n\nb»" :=
  ⟨fun b ls₁ ls₂ => processLines_append ls₁ ls₂ b, by decide, by decide, by decide⟩

/-- C7: emphasis-spacing cleanup behaves as claimed on the spec's examples:
both-sides spaces inside a width-3 pair collapse, a one-sided space inside a
width-2 pair collapses, and the structural asterisk of a bullet line is
masked and survives untouched. -/
theorem c7_emphasis_spacing_examples :
    fixEmphasisSpaces "*** hello ***".data = "***hello***".data ∧
    fixEmphasisSpaces "** hi**".data = "**hi**".data ∧
    fixEmphasisSpaces "* item".data = "* item".data :=
  ⟨by decide, by decide, by decide⟩

/-- C8 (counterexample): `reorderMarkers` is not idempotent.  Its six
replacements are single left-to-right passes that do not rescan rewritten
output, so on `»»*` the `»*` → `*»` rewrite creates a *new* `»*` adjacency
(`»*»`), and a second application moves the marker again (`*»»`). -/
theorem c8_reorder_not_idempotent :
    reorderMarkers (reorderMarkers "»»*".data) ≠ reorderMarkers "»»*".data := by
  decide

/-- C8 (amended): a second application of `reorderMarkers` is a no-op exactly
when the first pass left no marker-inside-guillemet adjacency: whenever the
output of `reorderMarkers` contains neither `*«` nor `»*` as a substring, the
line is a fixed point (each of the six patterns contains one of those two
adjacencies). -/
theorem c8_reorder_second_pass_noop (l : List Char)
    (h1 : hasSubstr "*«".data (reorderMarkers l) = false)
    (h2 : hasSubstr "»*".data (reorderMarkers l) = false) :
    reorderMarkers (reorderMarkers l) = reorderMarkers l :=
  reorderMarkers_eq_self h1 h2

/-- C8 witness: the amended no-op statement at a concrete line. -/
theorem c8_second_pass_noop_witness :
    reorderMarkers (reorderMarkers "a *»b".data) = reorderMarkers "a *»b".data :=
  c8_reorder_second_pass_noop "a *»b".data (by decide) (by decide)

/-- C9: `Parser.getChapters` does *not* return normally on every input: any
manuscript containing a heading boundary drives it into
`firstMatch.trim()` — a `TypeError`, since the match array has no `trim`
method — while the heading-free fallbacks (empty sequence, single
`"Chapitre 1"` chapter) do work as specified. -/
theorem c9_getChapters_throws :
    getChapters "#### A" = Except.error jsMatchTrimError ∧
    getChapters "" = Except.ok [] ∧
    getChapters "just text" = Except.ok [⟨"Chapitre 1", "just text"⟩] :=
  ⟨rfl, rfl, rfl⟩

/-- C10: the restoration pass substitutes every `__CODE_BLOCK_<n>__` shaped
substring, and when the index `n` is at least the number of extracted
fragments the JavaScript callback returns `undefined`, which `String.replace`
stringifies: the token becomes the text `undefined` rather than being kept
verbatim.  In particular a literal `__CODE_BLOCK_0__` in a manuscript with no
code runs processes to `undefined`. -/
theorem c10_placeholder_collision :
    (∀ (ps : List (List Char)) (ds : List Char), ds ≠ [] →
        (∀ c ∈ ds, isDigitCh c = true) → ps.length ≤ digitsToNat ds →
        restore ps ("__CODE_BLOCK_".data ++ ds ++ "__".data) = "undefined".data) ∧
    process "__CODE_BLOCK_0__" = "undefined" := by
  constructor
  · intro ps ds hne hd hlen
    have hlen' : ("__CODE_BLOCK_".data ++ ds ++ "__".data).length = 15 + ds.length := by
      rw [List.length_append, List.length_append,
        show ("__CODE_BLOCK_".data : List Char).length = 13 from rfl,
        show ("__".data : List Char).length = 2 from rfl]
      omega
    have htok : ("__CODE_BLOCK_".data : List Char) ++ ds ++ "__".data =
        '_' :: ("_CODE_BLOCK_".data ++ ds ++ "__".data) := rfl
    unfold restore
    rw [hlen']
    conv_lhs => rw [htok]
    simp only [restoreGo]
    rw [← htok, matchToken_token ds hne hd]
    simp only
    rw [List.drop_eq_nil_of_le (by rw [hlen']; omega), restoreGo_nil,
      List.getD_eq_default ps _ hlen, List.append_nil]
  · decide

/-- C10 witness: the general statement applied to a stray `__CODE_BLOCK_0__`
with no extracted fragments. -/
theorem c10_placeholder_collision_witness :
    restore [] ("__CODE_BLOCK_".data ++ ['0'] ++ "__".data) = "undefined".data :=
  c10_placeholder_collision.1 [] ['0'] (by decide) (by decide) (by decide)
